import Mathlib

/-!
Verification of the tartare-logs core (log watcher, line reassembler,
entry parser, retention engine, log reader with match-wait) against its
natural-language specification.

The JavaScript source is shallowly embedded: each relevant function of
`lib/log-watcher.js` and of the `LogReader` module is translated into an
executable Lean definition over explicit state values.  JavaScript
objects (records) are modelled as association lists from field names to
values, JavaScript `undefined` as an explicit value constructor, thrown
exceptions as `Except`, and the `setTimeout` timers as explicit
`Option`/`Bool` state components driven by event lists.  Definitions
come first, then the theorems about them.
-/

namespace TartareLogs

/-- The platform line terminator `os.EOL` (a single newline on POSIX). -/
def eolChar : Char := '\n'

/-- A JavaScript value as it appears in parsed log records: `undefined`
(what a non-participating capture group yields), a string, or a number. -/
inductive JsVal where
  | undef : JsVal
  | str : String → JsVal
  | num : Int → JsVal
deriving DecidableEq, Repr

/-- A parsed log record: a JavaScript object, i.e. a mapping from field
names to values, modelled as an association list with unique keys. -/
abbrev Rec := List (String × JsVal)

/-- JavaScript property assignment `obj[k] = v`: overwrite the entry if the
key exists, otherwise append a new entry.  Assigning `undefined` still
creates the property, exactly as in JavaScript. -/
def setField : Rec → String → JsVal → Rec
  | [], k, v => [(k, v)]
  | (k0, v0) :: rest, k, v =>
      if k0 = k then (k0, v) :: rest else (k0, v0) :: setField rest k v

/-- JavaScript property read `obj[k]`: the stored value, or `undefined`
when the object has no such property. -/
def getField (r : Rec) (k : String) : JsVal :=
  (r.lookup k).getD JsVal.undef

/-- JavaScript string coercion as performed by the `+` operator
(`undefined + "s"` gives the string "undefineds"). -/
def jsCoerceStr : JsVal → String
  | JsVal.undef => "undefined"
  | JsVal.str s => s
  | JsVal.num n => toString n

/-- `LogWatcher._parseLogEntry`, RegExp branch, record construction;
lib/log-watcher.js lines 301-308.  After `match` returned the capture
array and the whole-match element was sliced off, the code runs
`for (i = 0; i < fieldsValues.length; i++) log[fieldNames[i]] = fieldsValues[i]`.
A capture group that did not participate is `undefined` (`none` here) and
is still assigned; an index beyond `fieldNames` yields the JavaScript key
"undefined". -/
def buildRegexpLog (captures : List (Option String)) (fieldNames : List String) : Rec :=
  captures.enum.foldl
    (fun log p =>
      setField log (fieldNames.getD p.1 "undefined")
        (match p.2 with
         | some s => JsVal.str s
         | none => JsVal.undef))
    []

/-! ## Line reassembler (`_parseLogData`, splitting part) -/

/-- One character of JavaScript whitespace as removed by `String.trim`
(the common ASCII subset, which covers every character the watcher
handles). -/
def isWS (c : Char) : Bool :=
  c = ' ' || c = '\t' || c = eolChar || c = '\r'

/-- JavaScript `line.trim()`. -/
def trimWS (l : List Char) : List Char :=
  ((l.dropWhile isWS).reverse.dropWhile isWS).reverse

/-- A line survives the `line.trim() === ''` skip in `_parseLogData`
iff it contains at least one non-whitespace character. -/
def nonBlank (l : List Char) : Bool :=
  l.any (fun c => !(isWS c))

/-- JavaScript `data.split(os.EOL)`: split a character list on the line
terminator, keeping empty pieces; the empty string splits to `[""]`. -/
def splitNL : List Char → List (List Char)
  | [] => [[]]
  | c :: rest =>
      match splitNL rest with
      | [] => [[c]]
      | h :: t => if c = eolChar then [] :: h :: t else (c :: h) :: t

/-- The splitting step of `LogWatcher._parseLogData`
(lib/log-watcher.js lines 222-228): prepend the pending partial fragment,
split on `os.EOL`, and when the data does not end in the terminator pop
the final piece off as the new partial fragment. -/
def splitStep (partialData data : List Char) : List (List Char) × List Char :=
  let d := partialData ++ data
  let lines := splitNL d
  if d.getLast? = some eolChar then (lines, [])
  else (lines.dropLast, lines.getLastD [])

/-! ## Constructor mode selection (`LogWatcher` constructor) -/

/-- The aspects of a `config` object that the `LogWatcher` constructor
(lib/log-watcher.js lines 78-89) inspects: truthiness of `config.json`,
whether `config.fn` is a `Function`, whether `config.pattern` is a
`RegExp`, and whether `config.fieldNames` is an `Array`. -/
structure LWConfig where
  json : Bool
  fnIsFunction : Bool
  patternIsRegExp : Bool
  fieldNamesIsArray : Bool
deriving DecidableEq, Repr

/-- The three parsing methods. -/
inductive ParseMethod where
  | json : ParseMethod
  | custom : ParseMethod
  | regexp : ParseMethod
deriving DecidableEq, Repr

/-- The constructor's method-selection chain, lib/log-watcher.js lines
78-89: `json` wins, then `fn`, then `pattern`+`fieldNames`, otherwise the
constructor throws "LogWatcher: Non supported method". -/
def selectMethod (c : LWConfig) : Except String ParseMethod :=
  if c.json then Except.ok ParseMethod.json
  else if c.fnIsFunction then Except.ok ParseMethod.custom
  else if c.patternIsRegExp && c.fieldNamesIsArray then Except.ok ParseMethod.regexp
  else Except.error "LogWatcher: Non supported method"

/-- How many of the three parsing modes a config object selects. -/
def countModes (c : LWConfig) : Nat :=
  (if c.json then 1 else 0) + (if c.fnIsFunction then 1 else 0) +
    (if c.patternIsRegExp && c.fieldNamesIsArray then 1 else 0)

/-! ## Template matcher (`LogReader._matches`, unnamed part_004 lines 92-113) -/

/-- A template field value: the `undefined` sentinel (existence probe), a
regular expression (kept abstract as a predicate on the stringified
value), or a literal compared with strict equality. -/
inductive TVal where
  | undef : TVal
  | regex : (String → Bool) → TVal
  | lit : JsVal → TVal

/-- JavaScript `v.toString()`: throws a TypeError when `v` is
`undefined`. -/
def jsToString : JsVal → Except Unit String
  | JsVal.undef => Except.error ()
  | JsVal.str s => Except.ok s
  | JsVal.num n => Except.ok (toString n)

/-- The per-field test inside `_matches`: absent field fails, the
`undefined` sentinel is an existence probe, a RegExp is matched against
the stringified value, anything else by strict equality. -/
def matchField (log : Rec) (fieldName : String) (tv : TVal) : Except Unit Bool :=
  if (log.lookup fieldName).isSome = false then Except.ok false
  else
    match tv with
    | TVal.undef => Except.ok true
    | TVal.regex p => (jsToString (getField log fieldName)).map p
    | TVal.lit v => Except.ok (decide (getField log fieldName = v))

/-- JavaScript `array.reduce((p, v) => p && v)` without an initial value:
throws a TypeError on an empty array, otherwise folds `&&` from the first
element. -/
def jsReduceAnd : List Bool → Except Unit Bool
  | [] => Except.error ()
  | b :: rest => Except.ok (rest.foldl (fun x y => x && y) b)

/-- `LogReader._matches` (unnamed part_004 lines 92-113): a null/absent
template matches anything; otherwise map the per-field test over
`Object.keys(template)` and reduce with `&&` (and no initial value). -/
def matchesImpl (log : Rec) (tmpl : Option (List (String × TVal))) : Except Unit Bool :=
  match tmpl with
  | none => Except.ok true
  | some tl => do
      let bools ← tl.mapM (fun ft => matchField log ft.1 ft.2)
      jsReduceAnd bools

/-! ## Watcher state and `_parseLogData` (RegExp method) -/

/-- The mutable state of a `LogWatcher` (lib/log-watcher.js lines
96-102): the pending partial line, the retention buffer `_logs`, the
retained-log timer (`_retainedLogTimeoutId`, carrying the record its
callback will emit), and the resources owned while watching
(`_fileWatcher`, `_fileWatcherTimeoutId`, `_stream`, `_started`). -/
structure WSt where
  partialData : List Char
  logs : List Rec
  retTimer : Option Rec
  fileWatcher : Bool
  fileWatcherTimeout : Bool
  stream : Bool
  started : Bool
deriving DecidableEq, Repr

/-- A freshly constructed watcher. -/
def initWSt : WSt := ⟨[], [], none, false, false, false, false⟩

/-- The per-line body of the `lines.forEach` in `_parseLogData`
(lib/log-watcher.js lines 229-259), RegExp method: skip blank lines, try
`_parseLogEntry`; on a pattern violation either append the raw line to
the last field of the last buffered log (when `allowPatternViolations`
is set and a log exists) or record a parse-error event. -/
def parseLineStep (pat : List Char → Option (List (Option String)))
    (fieldNames : List String) (allowViol : Bool)
    (acc : List Rec × List String) (line : List Char) : List Rec × List String :=
  if nonBlank line = false then acc
  else
    match pat (trimWS line) with
    | some caps => (acc.1 ++ [buildRegexpLog caps fieldNames], acc.2)
    | none =>
        if allowViol && !(acc.1.isEmpty) then
          -- logs[len-1][fieldNames[len-1]] += os.EOL + line
          (match acc.1.getLast? with
           | none => acc.1
           | some lg =>
               let lastField := fieldNames.getLastD "undefined"
               acc.1.dropLast ++
                 [setField lg lastField
                   (JsVal.str (jsCoerceStr (getField lg lastField) ++
                     String.mk (eolChar :: line)))], acc.2)
        else
          (acc.1, acc.2 ++ [String.mk line])

/-- Folding `parseLineStep` over the delivered lines, starting from the
current retention buffer, as the `forEach` of lines 229-259 does. -/
def parseLines (pat : List Char → Option (List (Option String)))
    (fieldNames : List String) (allowViol : Bool)
    (logs0 : List Rec) (lines : List (List Char)) : List Rec × List String :=
  lines.foldl (parseLineStep pat fieldNames allowViol) (logs0, [])

/-- The emission `forEach` of lines 264-278: every buffered log except
the one at the last index is emitted; the last one instead becomes the
payload of the freshly armed retained-log timer. -/
def emitRetain : List Rec → List Rec × Option Rec
  | [] => ([], none)
  | [x] => ([], some x)
  | x :: y :: rest =>
      let r := emitRetain (y :: rest)
      (x :: r.1, r.2)

/-- JavaScript `array.slice(-1)` (line 280): the suffix of length one. -/
def jsSliceNeg1 (l : List Rec) : List Rec := l.drop (l.length - 1)

/-- `LogWatcher._parseLogData` for the RegExp method (lib/log-watcher.js
lines 215-280 with `method === 'regexp'`): clear the retained-log timer,
reassemble lines, parse them into the buffer, emit all but the last
buffered log, arm the retention timer with the last one and trim the
buffer to `slice(-1)`.  Returns the new state, the emitted records and
the parse-error events. -/
def parseLogData (pat : List Char → Option (List (Option String)))
    (fieldNames : List String) (allowViol : Bool)
    (s : WSt) (data : List Char) : WSt × List Rec × List String :=
  let lp := splitStep s.partialData data
  let pr := parseLines pat fieldNames allowViol s.logs lp.1
  let er := emitRetain pr.1
  ({ s with partialData := lp.2, logs := jsSliceNeg1 pr.1, retTimer := er.2 },
   er.1, pr.2)

/-- `LogWatcher.stop` (lib/log-watcher.js lines 346-362): close the file
watcher, clear the polling timer `_fileWatcherTimeoutId`, detach the
stream listeners, reset `_started`.  The retained-log timer
`_retainedLogTimeoutId` is not touched. -/
def stopW (s : WSt) : WSt :=
  { s with fileWatcher := false, fileWatcherTimeout := false,
           stream := false, started := false }

/-- The events that drive a running RegExp-mode watcher: a data delivery,
expiry of the retained-log timer (whose callback, lines 273-276, emits
the retained record and empties the buffer), and `stop()`. -/
inductive WatEvent where
  | data : List Char → WatEvent
  | expireRetained : WatEvent
  | stopEv : WatEvent

/-- One event step of a RegExp-mode watcher; returns the new state and
the records emitted as `log` events during the step. -/
def watStep (pat : List Char → Option (List (Option String)))
    (fieldNames : List String) (allowViol : Bool)
    (s : WSt) : WatEvent → WSt × List Rec
  | WatEvent.data d =>
      let r := parseLogData pat fieldNames allowViol s d
      (r.1, r.2.1)
  | WatEvent.expireRetained =>
      match s.retTimer with
      | some r => ({ s with logs := [], retTimer := none }, [r])
      | none => (s, [])
  | WatEvent.stopEv => (stopW s, [])

/-! ## `_parseLogData`, custom method -/

/-- Watcher state relevant to the custom method; the buffer may hold the
JavaScript `null` a custom function returned (`none` here). -/
structure CSt where
  partialData : List Char
  logs : List (Option Rec)
deriving DecidableEq, Repr

/-- `LogWatcher._parseLogData` for the custom method (lib/log-watcher.js
lines 215-259 and the non-regexp emission branch 281-288): each non-blank
line is handed to the caller's function (`_parseLogEntry`, line 336) and
whatever it returns — the JavaScript `null` included — is pushed onto
`_logs` and then emitted as a `log` event; the buffer is emptied.
(Exceptions thrown by the function are out of scope here: the modelled
functions are total.) -/
def parseLogDataCustom (fn : List Char → Option Rec)
    (s : CSt) (data : List Char) : CSt × List (Option Rec) :=
  let lp := splitStep s.partialData data
  let logs1 := lp.1.foldl
    (fun acc line => if nonBlank line = false then acc else acc ++ [fn line])
    s.logs
  ({ partialData := lp.2, logs := [] }, logs1)

/-- A concrete one-capture pattern: the trimmed line "a" yields the
single capture "x". -/
def patSingleA : List Char → Option (List (Option String)) :=
  fun l => if l = ['a'] then some [some "x"] else none

/-! ## The match-wait engine: `LogReader.waitForLogToExist`
(unnamed part_004 lines 136-191)

The asynchronous bookkeeping of one `waitForLogToExist` call is embedded
as a state machine.  A `WaitSt` records whether the deadline timer
(armed by the `setTimeout` at the top of the function) is still armed
and whether the call's `internallog`/`internalerror` listeners are
registered on the internal dispatcher.  The template is abstracted to
the boolean matcher the call applies to each record (a call whose
template makes `_matches` total, i.e. a null or nonempty template). -/

/-- A completion: one invocation of the caller's callback. -/
inductive Completion where
  | found : Rec → Completion
  | unexpected : Rec → Completion
  | upstreamErr : Completion
  | timeoutC : Completion
deriving DecidableEq, Repr

/-- Result of the synchronous scan of the buffered record list
(part_004 lines 158-166): first match wins; in strict mode a
non-matching record fails the call at once. -/
inductive ScanRes where
  | found : Rec → ScanRes
  | strictViol : Rec → ScanRes
  | notFound : ScanRes
deriving Repr

/-- The buffered-records loop of `waitForLogToExist`. -/
def scanLogs (m : Rec → Bool) (strict : Bool) : List Rec → ScanRes
  | [] => ScanRes.notFound
  | r :: rest =>
      if m r then ScanRes.found r
      else if strict then ScanRes.strictViol r
      else scanLogs m strict rest

/-- Timer/subscription state of one pending `waitForLogToExist` call. -/
structure WaitSt where
  timerArmed : Bool
  subscribed : Bool
deriving DecidableEq, Repr

/-- The synchronous part of `waitForLogToExist` (part_004 lines 145-177):
the deadline timer is armed first; a nonempty error list completes at
once with the aggregated upstream error — without clearing the timer; a
buffered match clears the timer and completes; a strict violation in the
buffer completes — again without clearing the timer; otherwise the call
subscribes to future records and errors.  Returns the resulting state
and the callback invocations already performed. -/
def initWait (m : Rec → Bool) (strict : Bool) (logs : List Rec)
    (errorsNonempty : Bool) : WaitSt × List Completion :=
  if errorsNonempty then
    ({ timerArmed := true, subscribed := false }, [Completion.upstreamErr])
  else
    match scanLogs m strict logs with
    | ScanRes.found r =>
        ({ timerArmed := false, subscribed := false }, [Completion.found r])
    | ScanRes.strictViol r =>
        ({ timerArmed := true, subscribed := false }, [Completion.unexpected r])
    | ScanRes.notFound =>
        ({ timerArmed := true, subscribed := true }, [])

/-- Events a pending call can observe: expiry of its deadline timer, a
new record dispatched on `internallog`, an error on `internalerror`. -/
inductive RdEvent where
  | timerFire : RdEvent
  | newLog : Rec → RdEvent
  | newErr : RdEvent

/-- Whether a schedule contains the deadline-timer expiry. -/
def hasFire (events : List RdEvent) : Bool :=
  events.any (fun e => match e with | RdEvent.timerFire => true | _ => false)

/-- One event step for a pending call (part_004 lines 145-150 for the
timer callback, 179-191 for the listeners): the timer callback removes
all dispatcher listeners and invokes the callback with the timeout
error; a matching record — or, in strict mode, any record — and any
error each clear the timer, remove all listeners and invoke the
callback. -/
def waitStep (m : Rec → Bool) (strict : Bool) (s : WaitSt) :
    RdEvent → WaitSt × List Completion
  | RdEvent.timerFire =>
      if s.timerArmed then
        ({ timerArmed := false, subscribed := false }, [Completion.timeoutC])
      else (s, [])
  | RdEvent.newLog r =>
      if s.subscribed then
        if m r then ({ timerArmed := false, subscribed := false }, [Completion.found r])
        else if strict then
          ({ timerArmed := false, subscribed := false }, [Completion.unexpected r])
        else (s, [])
      else (s, [])
  | RdEvent.newErr =>
      if s.subscribed then
        ({ timerArmed := false, subscribed := false }, [Completion.upstreamErr])
      else (s, [])

/-- Drive a pending call through a schedule of events, collecting every
callback invocation. -/
def runFrom (m : Rec → Bool) (strict : Bool) (s : WaitSt) :
    List RdEvent → List Completion
  | [] => []
  | e :: es =>
      let r := waitStep m strict s e
      r.2 ++ runFrom m strict r.1 es

/-- All callback invocations of one `waitForLogToExist` call: the
synchronous ones followed by those triggered by the schedule. -/
def runWait (m : Rec → Bool) (strict : Bool) (logs : List Rec)
    (errorsNonempty : Bool) (events : List RdEvent) : List Completion :=
  (initWait m strict logs errorsNonempty).2 ++
    runFrom m strict (initWait m strict logs errorsNonempty).1 events

/-- A matcher accepting every record (a null template). -/
def mAny : Rec → Bool := fun _ => true

/-- A matcher rejecting every record. -/
def mNone : Rec → Bool := fun _ => false

/-! ## Two pending waiters on one reader

All waiters of a `LogReader` share the single `internalDispatcher`, and
every completion path calls `internalDispatcher.removeAllListeners()`
(part_004 lines 146, 181, 186, 190), which strips the listeners of every
pending call, not only the completing one.  The joint state of two
pending calls — call A armed (and its listeners registered) before call
B — is embedded below.  Node's `EventEmitter.emit` iterates over a
snapshot of the listener array, so within one dispatched event both
handlers run even if the first removed all listeners; removal takes
effect from the next event on. -/

/-- The two pending calls. -/
inductive WId where
  | wA : WId
  | wB : WId
deriving DecidableEq, Repr

/-- Per-call matcher and strict flag for the two calls. -/
structure TwoParams where
  mA : Rec → Bool
  sA : Bool
  mB : Rec → Bool
  sB : Bool

/-- Joint dispatcher/timer state of the two pending calls: whether each
call's listeners are registered and whether each deadline timer is
armed. -/
structure TwoSt where
  subA : Bool
  subB : Bool
  tmrA : Bool
  tmrB : Bool
deriving DecidableEq, Repr

/-- Events observable by the pair: a record dispatched on `internallog`,
an error on `internalerror`, and each call's deadline expiry. -/
inductive TwoEvent where
  | log : Rec → TwoEvent
  | err : TwoEvent
  | fireA : TwoEvent
  | fireB : TwoEvent

/-- One dispatched event for the two pending calls.  For `internallog` /
`internalerror` the handlers run in registration order (A first) over
the emit-time snapshot; a handler that completes clears its own timer
and removes the listeners of both calls.  A timer callback removes all
listeners as well. -/
def stepTwo (p : TwoParams) (s : TwoSt) : TwoEvent → TwoSt × List (WId × Completion)
  | TwoEvent.log r =>
      let snapB := s.subB
      let h1 :=
        if s.subA then
          if p.mA r then
            ({ s with tmrA := false, subA := false, subB := false },
             [(WId.wA, Completion.found r)])
          else if p.sA then
            ({ s with tmrA := false, subA := false, subB := false },
             [(WId.wA, Completion.unexpected r)])
          else (s, [])
        else (s, [])
      let h2 :=
        if snapB then
          if p.mB r then
            ({ h1.1 with tmrB := false, subA := false, subB := false },
             [(WId.wB, Completion.found r)])
          else if p.sB then
            ({ h1.1 with tmrB := false, subA := false, subB := false },
             [(WId.wB, Completion.unexpected r)])
          else (h1.1, [])
        else (h1.1, [])
      (h2.1, h1.2 ++ h2.2)
  | TwoEvent.err =>
      let snapB := s.subB
      let h1 :=
        if s.subA then
          ({ s with tmrA := false, subA := false, subB := false },
           [(WId.wA, Completion.upstreamErr)])
        else (s, [])
      let h2 :=
        if snapB then
          ({ h1.1 with tmrB := false, subA := false, subB := false },
           [(WId.wB, Completion.upstreamErr)])
        else (h1.1, [])
      (h2.1, h1.2 ++ h2.2)
  | TwoEvent.fireA =>
      if s.tmrA then
        ({ s with tmrA := false, subA := false, subB := false },
         [(WId.wA, Completion.timeoutC)])
      else (s, [])
  | TwoEvent.fireB =>
      if s.tmrB then
        ({ s with tmrB := false, subA := false, subB := false },
         [(WId.wB, Completion.timeoutC)])
      else (s, [])

/-- Drive the pair through a schedule, keeping the callback invocations
of each event as one chunk. -/
def runTwoChunks (p : TwoParams) (s : TwoSt) :
    List TwoEvent → List (List (WId × Completion))
  | [] => []
  | e :: es =>
      let r := stepTwo p s e
      r.2 :: runTwoChunks p r.1 es

/-- The concrete parameter set for the C10 witness: call A never
matches, call B matches everything, both non-strict. -/
def twoParamsW : TwoParams := ⟨fun _ => false, false, fun _ => true, false⟩

/-! ## File-source offset safety (C7)

The change handler of the watchr-based `_startFileWatching`
(lib/log-watcher.js lines 499-528) keeps `lastSize` and, for each change
event carrying `previousStats`/`currentStats`, clamps the reported
previous size with `Math.max` against `lastSize`, drops the event when
the clamped previous size equals the current size, and otherwise reads
the byte range from the clamped previous size up to the current size. -/

/-- One change event as the handler sees it: the reported
`previousStats.size` (absent on a `create` event, treated as 0) and
`currentStats.size`. -/
abbrev ChangeEvent := Option Nat × Nat

/-- The clamp-and-read logic of one change event (lines 508-523): returns
the updated `lastSize` and the half-open byte range `[clampedPrev,
currSize)` that is read, or `none` when the event is dropped. -/
def watchStep (lastSize : Nat) (ev : ChangeEvent) : Nat × Option (Nat × Nat) :=
  let prev := max (ev.1.getD 0) lastSize
  if prev = ev.2 then (lastSize, none)
  else (ev.2, some (prev, ev.2))

/-- Fold `watchStep` over a sequence of change events, collecting the
byte ranges actually read. -/
def watchRun (lastSize : Nat) : List ChangeEvent → Nat × List (Nat × Nat)
  | [] => (lastSize, [])
  | e :: es =>
      let r := watchStep lastSize e
      let rest := watchRun r.1 es
      (rest.1, r.2.toList ++ rest.2)

/-! ## Line integrity of the reassembler (C8) -/

/-- One delivery seen through the reassembly-and-skip part of
`_parseLogData`: split with the pending partial fragment, keep the lines
that survive the blank-line skip, carry the new partial fragment. -/
def reassembleStep (acc : List (List Char) × List Char) (chunk : List Char) :
    List (List Char) × List Char :=
  let lp := splitStep acc.2 chunk
  (acc.1 ++ lp.1.filter nonBlank, lp.2)

/-- The lines delivered to the entry parser over a whole sequence of
chunk deliveries, starting from an empty partial fragment, together with
the final pending fragment. -/
def runReassembler (chunks : List (List Char)) : List (List Char) × List Char :=
  chunks.foldl reassembleStep ([], [])

/-- Prepend a pending fragment to the first piece of a split. -/
def mergeHead (p : List Char) : List (List Char) → List (List Char)
  | [] => [p]
  | h :: t => (p ++ h) :: t

/-! ## Claim theorems (first batch) -/

/-- C2: In pattern mode a capture group that did not participate in the
match is claimed to leave the record without an entry for its field.  The
code (lib/log-watcher.js lines 301-308) instead assigns the `undefined`
capture, which creates the property: on captures `[undefined, "c"]` with
field names `["f1", "f2"]` the record does contain an entry for "f1"
(with value `undefined`), contradicting the claim and the v1.0.0 release
note "Ignore fields with undefined value". -/
theorem buildRegexpLog_keeps_undefined_capture :
    buildRegexpLog [none, some "c"] ["f1", "f2"]
      = [("f1", JsVal.undef), ("f2", JsVal.str "c")] ∧
    ((buildRegexpLog [none, some "c"] ["f1", "f2"]).lookup "f1").isSome = true := by
  constructor
  · rfl
  · rfl

/-- C3: the claim says the empty template always matches.  For a null
template `_matches` indeed returns true, but for an empty (yet non-null)
template object `Object.keys` is empty and `reduce` with no initial value
throws a TypeError, so `waitForMatch` with template `\x7b\x7d` crashes
instead of succeeding on the first record. -/
theorem matchesImpl_empty_template_throws :
    matchesImpl [("a", JsVal.str "b")] (some []) = Except.error () ∧
    matchesImpl [("a", JsVal.str "b")] none = Except.ok true := by
  constructor
  · rfl
  · rfl

/-- C6 counterexample: a config selecting both the json and the custom
mode (ambiguous, two modes selected) does not fail construction — the
chain silently picks json — refuting "construction fails for every
ambiguous config". -/
theorem selectMethod_ambiguous_succeeds :
    countModes ⟨true, true, false, false⟩ = 2 ∧
    selectMethod ⟨true, true, false, false⟩ = Except.ok ParseMethod.json := by
  constructor
  · rfl
  · rfl

/-- C6 amended: construction fails with "Non supported method" exactly
when the config selects no mode at all; when several modes are selected
construction succeeds, resolving the ambiguity by the fixed priority
json, then custom, then pattern. -/
theorem selectMethod_ok_iff (c : LWConfig) :
    ((∃ m, selectMethod c = Except.ok m) ↔ 0 < countModes c) ∧
    (c.json = true → selectMethod c = Except.ok ParseMethod.json) ∧
    (c.json = false → c.fnIsFunction = true →
      selectMethod c = Except.ok ParseMethod.custom) := by
  obtain ⟨j, f, p, a⟩ := c
  cases j <;> cases f <;> cases p <;> cases a <;>
    simp [selectMethod, countModes]

/-- C6 amended, witness: the pattern-only config selects exactly one mode
and construction succeeds. -/
theorem selectMethod_ok_iff_witness :
    (∃ m, selectMethod ⟨true, false, false, false⟩ = Except.ok m) ∧
    selectMethod ⟨true, false, false, false⟩ = Except.ok ParseMethod.json := by
  refine ⟨((selectMethod_ok_iff ⟨true, false, false, false⟩).1).2 (by decide),
    ((selectMethod_ok_iff ⟨true, false, false, false⟩).2).1 rfl⟩

/-- C4: the claim says a line for which the custom function returns null
is ignored.  The code has no null check: `_parseLogData` pushes the null
onto `_logs` and the non-regexp emission branch emits it as a `log`
event.  With a function constantly returning null and the delivery
"x\n", the watcher emits exactly one `log` event carrying null. -/
theorem custom_null_is_emitted :
    (parseLogDataCustom (fun _ => none) ⟨[], []⟩ ('x' :: [eolChar])).2 = [none] ∧
    (parseLogDataCustom (fun _ => none) ⟨[], []⟩ ('x' :: [eolChar])).1.logs = [] := by
  exact ⟨rfl, rfl⟩

/-- The emission loop sends every buffered log but the last and retains
the last as the timer payload. -/
theorem emitRetain_eq : ∀ l : List Rec, emitRetain l = (l.dropLast, l.getLast?)
  | [] => rfl
  | [_] => rfl
  | x :: y :: rest => by
      have ih := emitRetain_eq (y :: rest)
      simp only [emitRetain, ih, List.dropLast_cons₂, List.getLast?_cons_cons]

/-- `slice(-1)` keeps exactly the last element. -/
theorem jsSliceNeg1_eq : ∀ l : List Rec, jsSliceNeg1 l = l.getLast?.toList
  | [] => rfl
  | [_] => rfl
  | x :: y :: rest => by
      have ih := jsSliceNeg1_eq (y :: rest)
      simp only [jsSliceNeg1, List.length_cons] at ih ⊢
      simpa [List.getLast?_cons_cons, Nat.succ_sub_one] using ih

/-- Splitting a list at its last element. -/
theorem dropLast_append_lastOption :
    ∀ l : List Rec, l.dropLast ++ l.getLast?.toList = l
  | [] => rfl
  | [_] => rfl
  | x :: y :: rest => by
      have ih := dropLast_append_lastOption (y :: rest)
      simp only [List.dropLast_cons₂, List.getLast?_cons_cons, List.cons_append, ih]

/-- C9: in pattern mode a data delivery emits every record of the
(post-parse) retention buffer except the last, in source order, trims the
buffer to that last record (none is lost: emitted ++ buffer is the whole
parsed list) and arms the retained-log timer with it (armed exactly when
the buffer is nonempty); and across any event — delivery, retained-timer
expiry, stop — the buffer never holds more than one record. -/
theorem parseLogData_retention :
    (∀ pat fieldNames allowViol (s : WSt) (d : List Char),
      (parseLogData pat fieldNames allowViol s d).2.1 =
        (parseLines pat fieldNames allowViol s.logs (splitStep s.partialData d).1).1.dropLast ∧
      (parseLogData pat fieldNames allowViol s d).1.logs =
        (parseLines pat fieldNames allowViol s.logs (splitStep s.partialData d).1).1.getLast?.toList ∧
      (parseLogData pat fieldNames allowViol s d).1.retTimer =
        (parseLines pat fieldNames allowViol s.logs (splitStep s.partialData d).1).1.getLast? ∧
      (parseLogData pat fieldNames allowViol s d).2.1 ++
          (parseLogData pat fieldNames allowViol s d).1.logs =
        (parseLines pat fieldNames allowViol s.logs (splitStep s.partialData d).1).1) ∧
    (∀ pat fieldNames allowViol (s : WSt) (e : WatEvent),
      s.logs.length ≤ 1 → (watStep pat fieldNames allowViol s e).1.logs.length ≤ 1) := by
  constructor
  · intro pat fieldNames allowViol s d
    refine ⟨?_, ?_, ?_, ?_⟩ <;>
      simp only [parseLogData, emitRetain_eq, jsSliceNeg1_eq, dropLast_append_lastOption]
  · intro pat fieldNames allowViol s e h
    cases e with
    | data d =>
        simp only [watStep, parseLogData, jsSliceNeg1_eq]
        cases (parseLines pat fieldNames allowViol s.logs
            (splitStep s.partialData d).1).1.getLast? <;> simp
    | expireRetained =>
        cases hr : s.retTimer <;> simp [watStep, hr, h]
    | stopEv => simpa [watStep, stopW] using h

/-- C9 witness: from the initial state, a `stop()` event keeps the
buffer at no more than one record. -/
theorem parseLogData_retention_witness :
    (watStep patSingleA ["f"] false initWSt WatEvent.stopEv).1.logs.length ≤ 1 := by
  exact parseLogData_retention.2 patSingleA ["f"] false initWSt WatEvent.stopEv (by decide)

/-- C5 counterexample: deliver "a\n" to a fresh pattern-mode watcher, so
one record is retained with the retention timer armed, then call
`stop()`.  The retained-log timer is still armed after `stop()` returns,
and on expiry it emits the retained record as a `log` event — refuting
"stop() cancels the retention timer, so no further log notification is
ever emitted by that timer". -/
theorem stop_leaves_retention_timer_armed :
    ((stopW (parseLogData patSingleA ["f"] false initWSt ('a' :: [eolChar])).1).retTimer
        = some [("f", JsVal.str "x")]) ∧
    (watStep patSingleA ["f"] false
        (stopW (parseLogData patSingleA ["f"] false initWSt ('a' :: [eolChar])).1)
        WatEvent.expireRetained).2 = [[("f", JsVal.str "x")]] := by
  exact ⟨rfl, rfl⟩

/-- C5 amended: `stop()` closes the file watcher, cancels the polling
timer and detaches the stream, but leaves the retained-log timer armed:
after `stop()` the retained record is still emitted when that timer
expires. -/
theorem stop_amended (pat : List Char → Option (List (Option String)))
    (fieldNames : List String) (allowViol : Bool) (s : WSt) (r : Rec)
    (h : s.retTimer = some r) :
    (stopW s).fileWatcher = false ∧ (stopW s).fileWatcherTimeout = false ∧
    (stopW s).stream = false ∧ (stopW s).retTimer = some r ∧
    (watStep pat fieldNames allowViol (stopW s) WatEvent.expireRetained).2 = [r] := by
  refine ⟨rfl, rfl, rfl, ?_, ?_⟩ <;> simp [stopW, watStep, h]

/-- C5 amended, witness: instantiated at the reachable post-delivery
state used in the counterexample. -/
theorem stop_amended_witness :
    ((stopW (parseLogData patSingleA ["f"] false initWSt ('a' :: [eolChar])).1).retTimer
        = some [("f", JsVal.str "x")]) ∧
    (watStep patSingleA ["f"] false
        (stopW (parseLogData patSingleA ["f"] false initWSt ('a' :: [eolChar])).1)
        WatEvent.expireRetained).2 = [[("f", JsVal.str "x")]] := by
  have h := stop_amended patSingleA ["f"] false
    (parseLogData patSingleA ["f"] false initWSt ('a' :: [eolChar])).1
    [("f", JsVal.str "x")] rfl
  exact ⟨h.2.2.2.1, h.2.2.2.2⟩

/-- C1 counterexample: a call made while the reader's error list is
nonempty completes immediately with the upstream error but leaves the
deadline timer armed; when the timer expires the callback runs a second
time with the timeout error — two invocations, refuting "the completion
callback is invoked exactly once". -/
theorem waitForLog_double_completion :
    (runWait mAny false [] true [RdEvent.timerFire]).length = 2 ∧
    runWait mAny false [] true [RdEvent.timerFire]
      = [Completion.upstreamErr, Completion.timeoutC] := by
  exact ⟨rfl, rfl⟩

/-- After a call is fully torn down (timer cleared, listeners removed)
no event produces any further callback invocation. -/
theorem runFrom_dead (m : Rec → Bool) (strict : Bool) :
    ∀ events, runFrom m strict ⟨false, false⟩ events = []
  | [] => rfl
  | e :: es => by
      cases e <;>
        simpa [runFrom, waitStep] using runFrom_dead m strict es

/-- A call that returned without clearing its timer and without
subscribing invokes the callback again exactly when the timer expires. -/
theorem runFrom_armed_unsubscribed (m : Rec → Bool) (strict : Bool) :
    ∀ events, runFrom m strict ⟨true, false⟩ events
      = if hasFire events then [Completion.timeoutC] else []
  | [] => rfl
  | e :: es => by
      cases e with
      | timerFire =>
          simp [runFrom, waitStep, hasFire, runFrom_dead]
      | newLog r =>
          simpa [runFrom, waitStep, hasFire] using runFrom_armed_unsubscribed m strict es
      | newErr =>
          simpa [runFrom, waitStep, hasFire] using runFrom_armed_unsubscribed m strict es

/-- A subscribed call with an armed timer completes at most once, and
exactly once when the schedule contains the timer expiry. -/
theorem runFrom_pending (m : Rec → Bool) (strict : Bool) :
    ∀ events, (runFrom m strict ⟨true, true⟩ events).length ≤ 1 ∧
      (hasFire events = true → (runFrom m strict ⟨true, true⟩ events).length = 1)
  | [] => by simp [runFrom, hasFire]
  | e :: es => by
      cases e with
      | timerFire =>
          simp [runFrom, waitStep, hasFire, runFrom_dead]
      | newLog r =>
          by_cases hm : m r
          · simp [runFrom, waitStep, hm, runFrom_dead, hasFire]
          · cases hs : strict
            · have ih := runFrom_pending m strict es
              simpa [runFrom, waitStep, hm, hs, hasFire] using ih
            · simp [runFrom, waitStep, hm, hs, runFrom_dead, hasFire]
      | newErr =>
          simp [runFrom, waitStep, hasFire, runFrom_dead]

/-- C1 amended: completion is single-shot on the immediate-match path
and on every path through the subscription (future match, strict
violation, future error, timeout) — each of those cancels the timer and
unsubscribes before the callback — but the immediate upstream-error and
immediate strict-violation returns leave the deadline timer armed, so
the timeout completion later invokes the callback a second time. -/
theorem waitForLog_completion_count (m : Rec → Bool) (strict : Bool)
    (logs : List Rec) (events : List RdEvent) :
    ((runWait m strict logs true events).length
        = 1 + if hasFire events then 1 else 0) ∧
    (∀ r, scanLogs m strict logs = ScanRes.strictViol r →
      (runWait m strict logs false events).length
        = 1 + if hasFire events then 1 else 0) ∧
    (∀ r, scanLogs m strict logs = ScanRes.found r →
      (runWait m strict logs false events).length = 1) ∧
    (scanLogs m strict logs = ScanRes.notFound →
      (runWait m strict logs false events).length ≤ 1 ∧
      (hasFire events = true → (runWait m strict logs false events).length = 1)) := by
  refine ⟨?_, fun r hr => ?_, fun r hr => ?_, fun hn => ?_⟩
  · simp only [runWait, initWait]
    cases hf : hasFire events <;> simp [runFrom_armed_unsubscribed, hf]
  · simp only [runWait, initWait, hr]
    cases hf : hasFire events <;> simp [runFrom_armed_unsubscribed, hf]
  · simp [runWait, initWait, hr, runFrom_dead]
  · have hp := runFrom_pending m strict events
    constructor
    · simpa [runWait, initWait, hn] using hp.1
    · intro hf
      simpa [runWait, initWait, hn] using hp.2 hf

/-- C1 amended, witness: a non-strict call with an empty buffer and no
upstream errors, whose schedule reaches the deadline, completes exactly
once. -/
theorem waitForLog_completion_count_witness :
    (runWait mNone false [] false [RdEvent.timerFire]).length = 1 := by
  exact ((waitForLog_completion_count mNone false [] [RdEvent.timerFire]).2.2.2 rfl).2 rfl

/-- Any event that produces a completion removes the listeners of both
calls. -/
theorem stepTwo_completion_unsubscribes (p : TwoParams) (s : TwoSt) (e : TwoEvent)
    (h : (stepTwo p s e).2 ≠ []) :
    (stepTwo p s e).1.subA = false ∧ (stepTwo p s e).1.subB = false := by
  cases e with
  | log r =>
      by_cases ha : s.subA <;> by_cases hb : s.subB <;>
        by_cases hma : p.mA r <;> by_cases hmb : p.mB r <;>
        by_cases hsa : p.sA <;> by_cases hsb : p.sB <;>
        simp_all [stepTwo]
  | err =>
      by_cases ha : s.subA <;> by_cases hb : s.subB <;> simp_all [stepTwo]
  | fireA => by_cases ht : s.tmrA <;> simp_all [stepTwo]
  | fireB => by_cases ht : s.tmrB <;> simp_all [stepTwo]

/-- Once both calls are unsubscribed they stay unsubscribed. -/
theorem stepTwo_unsub_absorbing (p : TwoParams) (s : TwoSt) (e : TwoEvent)
    (ha : s.subA = false) (hb : s.subB = false) :
    (stepTwo p s e).1.subA = false ∧ (stepTwo p s e).1.subB = false := by
  cases e with
  | log r => simp [stepTwo, ha, hb]
  | err => simp [stepTwo, ha, hb]
  | fireA => by_cases ht : s.tmrA <;> simp [stepTwo, ht, ha, hb]
  | fireB => by_cases ht : s.tmrB <;> simp [stepTwo, ht, ha, hb]

/-- With both calls unsubscribed, the only possible completions are the
calls' own timeouts. -/
theorem stepTwo_unsub_only_timeout (p : TwoParams) (s : TwoSt) (e : TwoEvent)
    (ha : s.subA = false) (hb : s.subB = false) :
    ∀ c ∈ (stepTwo p s e).2, c.2 = Completion.timeoutC := by
  cases e with
  | log r => simp [stepTwo, ha, hb]
  | err => simp [stepTwo, ha, hb]
  | fireA => by_cases ht : s.tmrA <;> simp [stepTwo, ht]
  | fireB => by_cases ht : s.tmrB <;> simp [stepTwo, ht]

/-- From an unsubscribed state, every later chunk holds timeouts only. -/
theorem runTwoChunks_unsub (p : TwoParams) :
    ∀ (events : List TwoEvent) (s : TwoSt), s.subA = false → s.subB = false →
      ∀ j, ∀ c ∈ (runTwoChunks p s events).getD j [], c.2 = Completion.timeoutC
  | [], _, _, _, _ => by simp [runTwoChunks, List.getD]
  | e :: es, s, ha, hb, j => by
      cases j with
      | zero =>
          simpa [runTwoChunks] using stepTwo_unsub_only_timeout p s e ha hb
      | succ j =>
          have habs := stepTwo_unsub_absorbing p s e ha hb
          simpa [runTwoChunks] using
            runTwoChunks_unsub p es (stepTwo p s e).1 habs.1 habs.2 j

/-- C10: every completion path (match, strict violation, upstream error,
or a deadline) removes the listeners of both pending calls from the
shared dispatcher; from any event that produced a completion on, every
completion delivered at a strictly later event is a timeout — the still
pending call is silently detached from future records and errors and
can only complete through its own deadline timer. -/
theorem removeAllListeners_detaches_all (p : TwoParams) :
    (∀ (s : TwoSt) (e : TwoEvent), (stepTwo p s e).2 ≠ [] →
      (stepTwo p s e).1.subA = false ∧ (stepTwo p s e).1.subB = false) ∧
    (∀ (events : List TwoEvent) (s : TwoSt) (i j : Nat), i < j →
      (runTwoChunks p s events).getD i [] ≠ [] →
      ∀ c ∈ (runTwoChunks p s events).getD j [], c.2 = Completion.timeoutC) := by
  refine ⟨stepTwo_completion_unsubscribes p, ?_⟩
  intro events
  induction events with
  | nil =>
      intro s i j hij hi
      simp [runTwoChunks, List.getD] at hi
  | cons e es ih =>
      intro s i j hij hi
      cases i with
      | zero =>
          obtain ⟨j, rfl⟩ : ∃ k, j = k + 1 := ⟨j - 1, by omega⟩
          simp only [runTwoChunks, List.getD_cons_succ]
          simp only [runTwoChunks, List.getD_cons_zero] at hi
          have habs := stepTwo_completion_unsubscribes p s e hi
          exact runTwoChunks_unsub p es (stepTwo p s e).1 habs.1 habs.2 j
      | succ i =>
          obtain ⟨j, rfl⟩ : ∃ k, j = k + 1 := ⟨j - 1, by omega⟩
          simp only [runTwoChunks, List.getD_cons_succ] at hi ⊢
          exact ih (stepTwo p s e).1 i j (by omega) hi

/-- C10 witness: record arrival completes call B (a non-timeout chunk at
index 0); at the strictly later event index 1 — call A's own deadline —
every completion is a timeout. -/
theorem removeAllListeners_detaches_all_witness :
    (runTwoChunks twoParamsW ⟨true, true, true, true⟩
        [TwoEvent.log [], TwoEvent.fireA]).getD 0 [] ≠ [] ∧
    ∀ c ∈ (runTwoChunks twoParamsW ⟨true, true, true, true⟩
        [TwoEvent.log [], TwoEvent.fireA]).getD 1 [], c.2 = Completion.timeoutC := by
  refine ⟨by decide, ?_⟩
  exact (removeAllListeners_detaches_all twoParamsW).2
    [TwoEvent.log [], TwoEvent.fireA] ⟨true, true, true, true⟩ 0 1
    (by decide) (by decide)

/-- Generalised invariant for `watchRun`: if the current `lastSize` is
below every reported current size, and reported previous sizes never
exceed their current sizes, the collected ranges are pairwise disjoint in
order, nonempty, and start at or after `lastSize`. -/
theorem watchRun_ranges (events : List ChangeEvent) :
    ∀ lastSize : Nat,
      (∀ e ∈ events, e.1.getD 0 ≤ e.2) →
      (∀ e ∈ events, lastSize ≤ e.2) →
      List.Pairwise (· ≤ ·) (events.map Prod.snd) →
      List.Pairwise (fun a b : Nat × Nat => a.2 ≤ b.1) (watchRun lastSize events).2 ∧
      (∀ r ∈ (watchRun lastSize events).2, lastSize ≤ r.1 ∧ r.1 < r.2) := by
  induction events with
  | nil => intro lastSize _ _ _; simp [watchRun]
  | cons e es ih =>
      intro lastSize hprev hlast hmono
      have hpe : e.1.getD 0 ≤ e.2 := hprev e (by simp)
      have hle : lastSize ≤ e.2 := hlast e (by simp)
      have hmono' : List.Pairwise (· ≤ ·) (es.map Prod.snd) :=
        (List.pairwise_cons.mp (by simpa using hmono)).2
      have hcurr : ∀ x ∈ es, e.2 ≤ x.2 := by
        intro x hx
        exact (List.pairwise_cons.mp (by simpa using hmono)).1 x.2
          (List.mem_map_of_mem Prod.snd hx)
      simp only [watchRun, watchStep]
      by_cases hdrop : max (e.1.getD 0) lastSize = e.2
      · simp only [hdrop, if_pos rfl, Option.toList_none, List.nil_append]
        exact ih lastSize (fun x hx => hprev x (by simp [hx]))
          (fun x hx => hlast x (by simp [hx])) hmono'
      · simp only [if_neg hdrop, Option.toList_some, List.singleton_append]
        have hmax : max (e.1.getD 0) lastSize ≤ e.2 := max_le hpe hle
        have hrest := ih e.2 (fun x hx => hprev x (by simp [hx])) hcurr hmono'
        constructor
        · refine List.pairwise_cons.mpr ⟨?_, hrest.1⟩
          intro r hr
          exact (hrest.2 r hr).1
        · intro r hr
          rcases List.mem_cons.mp hr with h | h
          · subst h
            exact ⟨le_max_right _ _, lt_of_le_of_ne hmax hdrop⟩
          · exact ⟨le_trans hle (hrest.2 r h).1, (hrest.2 r h).2⟩

/-- C7: for any sequence of change events whose reported current sizes
never shrink (the file only grows) and whose reported previous sizes do
not exceed their current sizes — which covers duplicated and overlapping
reported ranges — the byte ranges actually read are nonempty, start at
strictly monotonically non-decreasing offsets and are pairwise disjoint:
no byte is ever read twice. -/
theorem watch_offsets_monotone (events : List ChangeEvent)
    (hprev : ∀ e ∈ events, e.1.getD 0 ≤ e.2)
    (hmono : List.Pairwise (· ≤ ·) (events.map Prod.snd)) :
    List.Pairwise (fun a b : Nat × Nat => a.2 ≤ b.1) (watchRun 0 events).2 ∧
    ∀ r ∈ (watchRun 0 events).2, r.1 < r.2 := by
  have h := watchRun_ranges events 0 hprev (fun e _ => Nat.zero_le _) hmono
  exact ⟨h.1, fun r hr => (h.2 r hr).2⟩

/-- C7 witness: a duplicated event and an overlapping range are masked —
only the ranges [0,10) and [10,15) are read. -/
theorem watch_offsets_monotone_witness :
    (watchRun 0 [(some 0, 10), (some 0, 10), (some 5, 15)]).2 = [(0, 10), (10, 15)] ∧
    List.Pairwise (fun a b : Nat × Nat => a.2 ≤ b.1)
      (watchRun 0 [(some 0, 10), (some 0, 10), (some 5, 15)]).2 ∧
    ∀ r ∈ (watchRun 0 [(some 0, 10), (some 0, 10), (some 5, 15)]).2, r.1 < r.2 := by
  refine ⟨by decide, ?_, ?_⟩
  · exact (watch_offsets_monotone [(some 0, 10), (some 0, 10), (some 5, 15)]
      (by decide) (by decide)).1
  · exact (watch_offsets_monotone [(some 0, 10), (some 0, 10), (some 5, 15)]
      (by decide) (by decide)).2

/-- Splitting never produces the empty list of pieces. -/
theorem splitNL_ne_nil : ∀ l : List Char, splitNL l ≠ []
  | [] => by simp [splitNL]
  | c :: rest => by
      cases h : splitNL rest with
      | nil => exact absurd h (splitNL_ne_nil rest)
      | cons x t => by_cases hc : c = eolChar <;> simp [splitNL, h, hc]

/-- Splitting a concatenation: the complete pieces of the first part,
then the split of the second part with the first part's trailing
fragment merged into its first piece. -/
theorem splitNL_append : ∀ a b : List Char,
    splitNL (a ++ b) =
      (splitNL a).dropLast ++ mergeHead ((splitNL a).getLastD []) (splitNL b)
  | [], b => by
      cases hb : splitNL b with
      | nil => exact absurd hb (splitNL_ne_nil b)
      | cons x t => simp [splitNL, mergeHead, hb]
  | c :: a, b => by
      have ih := splitNL_append a b
      cases ha : splitNL a with
      | nil => exact absurd ha (splitNL_ne_nil a)
      | cons h t =>
          cases hb : splitNL b with
          | nil => exact absurd hb (splitNL_ne_nil b)
          | cons hb0 tb =>
              rw [ha, hb] at ih
              cases t with
              | nil =>
                  by_cases hc : c = eolChar
                  · simp [splitNL, ih, ha, hb, mergeHead, hc]
                  · simp [splitNL, ih, ha, hb, mergeHead, hc]
              | cons h2 t2 =>
                  by_cases hc : c = eolChar
                  · simp [splitNL, ih, ha, hb, mergeHead, hc,
                      List.getLastD_eq_getLast?, List.getLast?_cons_cons]
                  · simp [splitNL, ih, ha, hb, mergeHead, hc,
                      List.getLastD_eq_getLast?, List.getLast?_cons_cons]

/-- A terminator-free text splits into itself as the only piece. -/
theorem splitNL_no_eol : ∀ l : List Char, eolChar ∉ l → splitNL l = [l]
  | [], _ => rfl
  | c :: rest, h => by
      have hc : ¬(c = eolChar) := fun he => h (he ▸ List.mem_cons_self c rest)
      have hr := splitNL_no_eol rest (fun hm => h (List.mem_cons_of_mem c hm))
      simp [splitNL, hr, hc]

/-- The trailing piece of a split contains no terminator. -/
theorem splitNL_last_no_eol : ∀ d : List Char, eolChar ∉ (splitNL d).getLastD []
  | [] => by simp [splitNL]
  | c :: rest => by
      have ih := splitNL_last_no_eol rest
      cases hr : splitNL rest with
      | nil => exact absurd hr (splitNL_ne_nil rest)
      | cons h t =>
          rw [hr] at ih
          cases t with
          | nil =>
              by_cases hc : c = eolChar
              · simpa [splitNL, hr, hc] using ih
              · simp only [splitNL, hr, if_neg hc]
                simp only [List.getLastD_eq_getLast?, List.getLast?_singleton,
                  Option.getD_some] at ih ⊢
                intro hm
                rcases List.mem_cons.mp hm with he | he
                · exact hc he.symm
                · exact ih he
          | cons h2 t2 =>
              by_cases hc : c = eolChar
              · simpa [splitNL, hr, hc, List.getLastD_eq_getLast?,
                  List.getLast?_cons_cons] using ih
              · simpa [splitNL, hr, hc, List.getLastD_eq_getLast?,
                  List.getLast?_cons_cons] using ih

/-- A blank line stays blank. -/
theorem nonBlank_nil : nonBlank [] = false := rfl

/-- When the data ends at the terminator, the trailing split piece is
empty. -/
theorem splitNL_last_of_ends_eol (d : List Char) (h : d.getLast? = some eolChar) :
    (splitNL d).getLastD [] = [] := by
  obtain ⟨d', rfl⟩ := List.getLast?_eq_some_iff.mp h
  rw [splitNL_append d' [eolChar]]
  have : splitNL [eolChar] = [[], []] := by simp [splitNL]
  rw [this]
  cases hl : (splitNL d').getLastD [] with
  | nil => simp [mergeHead, List.getLastD_eq_getLast?]
  | cons x xs => simp [mergeHead, List.getLastD_eq_getLast?]

/-- Unfolding of `splitStep`. -/
theorem splitStep_eq (p c : List Char) :
    splitStep p c =
      if (p ++ c).getLast? = some eolChar then (splitNL (p ++ c), [])
      else ((splitNL (p ++ c)).dropLast, (splitNL (p ++ c)).getLastD []) := rfl

/-- Any nonempty piece list decomposes at its last piece. -/
theorem splitNL_decomp (d : List Char) :
    splitNL d = (splitNL d).dropLast ++ [(splitNL d).getLastD []] := by
  cases hg : (splitNL d).getLast? with
  | none => exact absurd (List.getLast?_eq_none_iff.mp hg) (splitNL_ne_nil d)
  | some x =>
      obtain ⟨ys, hy⟩ := List.getLast?_eq_some_iff.mp hg
      rw [List.getLastD_eq_getLast?, hg, Option.getD_some, hy]
      simp

/-- `splitStep` in terms of the plain split of the concatenation: the
delivered (non-blank) lines are the non-blank complete pieces, and the
new partial fragment is the trailing piece. -/
theorem splitStep_spec (p c : List Char) :
    (splitStep p c).1.filter nonBlank =
      ((splitNL (p ++ c)).dropLast).filter nonBlank ∧
    (splitStep p c).2 = (splitNL (p ++ c)).getLastD [] := by
  by_cases h : (p ++ c).getLast? = some eolChar
  · have hlast := splitNL_last_of_ends_eol (p ++ c) h
    constructor
    · rw [splitStep_eq, if_pos h]
      conv_lhs => rw [splitNL_decomp (p ++ c)]
      rw [List.filter_append, hlast]
      simp [nonBlank_nil]
    · rw [splitStep_eq, if_pos h]
      exact hlast.symm
  · constructor
    · rw [splitStep_eq, if_neg h]
    · rw [splitStep_eq, if_neg h]

/-- The trailing piece of an append with a nonempty second part. -/
theorem getLastD_append_right (A S : List (List Char)) (h : S ≠ []) :
    (A ++ S).getLastD [] = S.getLastD [] := by
  rw [List.getLastD_eq_getLast?, List.getLastD_eq_getLast?, List.getLast?_append]
  cases hg : S.getLast? with
  | none => exact absurd (List.getLast?_eq_none_iff.mp hg) h
  | some x => simp

/-- The chaining identity: processing the trailing fragment with the
rest of the stream is the same as processing the whole stream. -/
theorem splitNL_chain (p c js : List Char) :
    splitNL (p ++ (c ++ js)) =
      (splitNL (p ++ c)).dropLast ++
        splitNL ((splitNL (p ++ c)).getLastD [] ++ js) := by
  have h1 := splitNL_append (p ++ c) js
  have hq := splitNL_last_no_eol (p ++ c)
  have h2 := splitNL_append ((splitNL (p ++ c)).getLastD []) js
  rw [splitNL_no_eol _ hq] at h2
  simp only [List.dropLast_single, List.nil_append, List.getLastD_cons,
    List.getLastD_nil] at h2
  rw [← List.append_assoc, h1, h2]

/-- Generalised fold lemma for the reassembler: starting from any
already-delivered lines and any terminator-free pending fragment. -/
theorem runReassembler_go : ∀ (cs : List (List Char)) (acc : List (List Char))
    (p : List Char), eolChar ∉ p →
    cs.foldl reassembleStep (acc, p) =
      (acc ++ ((splitNL (p ++ cs.flatten)).dropLast).filter nonBlank,
       (splitNL (p ++ cs.flatten)).getLastD [])
  | [], acc, p, hp => by
      simp [List.foldl, splitNL_no_eol p hp]
  | c :: cs, acc, p, hp => by
      have hq := splitNL_last_no_eol (p ++ c)
      have hs := splitStep_spec p c
      have hne : splitNL ((splitNL (p ++ c)).getLastD [] ++ cs.flatten) ≠ [] :=
        splitNL_ne_nil _
      have ih := runReassembler_go cs
        (acc ++ ((splitNL (p ++ c)).dropLast).filter nonBlank)
        ((splitNL (p ++ c)).getLastD []) hq
      have hstep : reassembleStep (acc, p) c
          = (acc ++ ((splitNL (p ++ c)).dropLast).filter nonBlank,
             (splitNL (p ++ c)).getLastD []) := by
        simp only [reassembleStep]
        rw [hs.1, hs.2]
      have hchain := splitNL_chain p c cs.flatten
      rw [List.foldl_cons, hstep, ih]
      simp only [List.flatten_cons, Prod.mk.injEq]
      constructor
      · rw [hchain, List.dropLast_append_of_ne_nil _ hne, List.filter_append,
          List.append_assoc]
      · rw [hchain, getLastD_append_right _ _ hne]

/-- C8: for every text and every way of splitting it into chunks, the
reassembler delivers exactly the non-blank complete lines of the full
text, in source order, and the piece after the last terminator is held
as the partial fragment, never delivered on its own. -/
theorem reassembler_line_integrity (chunks : List (List Char)) :
    runReassembler chunks =
      (((splitNL chunks.flatten).dropLast).filter nonBlank,
       (splitNL chunks.flatten).getLastD []) := by
  simpa using runReassembler_go chunks [] [] (by simp)

end TartareLogs
